import Mathlib

/-!
Shallow embedding of volt's pathutil package (pathutil/pathutil.go).
Strings are modelled as lists of characters.  The Go standard-library
string and filepath helpers used by the package are given executable
Lean counterparts with the same semantics on the Unix build, where
filepath.ToSlash is the identity and the path separator is the slash
character.  Environment reads (HOME, USERPROFILE, runtime.GOOS) and the
filesystem existence check are threaded as explicit parameters.
-/

namespace Pathutil

/-- Strings are modelled as lists of characters. -/
abbrev Str := List Char

/-- Semantics of Go strings.Split with a one-character separator: the
result is never empty, and splitting the empty string yields one empty
chunk. -/
def splitOnChar (c : Char) : Str → List Str
  | [] => [[]]
  | x :: xs =>
    match splitOnChar c xs with
    | [] => [[]]
    | h :: t => if x = c then [] :: h :: t else (x :: h) :: t

/-- Semantics of Go strings.Join with a one-character separator. -/
def joinSep (c : Char) : List Str → Str
  | [] => []
  | [x] => x
  | x :: xs => x ++ c :: joinSep c xs

/-- Semantics of Go strings.TrimSuffix: remove one trailing occurrence
of the suffix when present. -/
def trimSuffix (s suffix : Str) : Str :=
  if suffix.isSuffixOf s then s.take (s.length - suffix.length) else s

/-- Semantics of Go filepath.ToSlash on a platform whose separator is
the slash character: the identity function. -/
def toSlash (s : Str) : Str := s

/-- Outcome of a call to NormalizeRepos: a normalized repository path, a
returned invalid-format error carrying the raw string, or a runtime
panic (out-of-range slice access). -/
inductive NormResult where
  | ok (path : Str)
  | invalidFormat (raw : Str)
  | panicked
  deriving DecidableEq

/-- Embedding of pathutil.NormalizeRepos.  The Go code slices
paths[len(paths)-3:] without checking len(paths) >= 3; when the slice
bound is negative Go panics, which the embedding records as
NormResult.panicked. -/
def NormalizeRepos (rawReposPath : Str) : NormResult :=
  let raw := toSlash rawReposPath
  let paths := splitOnChar '/' raw
  if paths.length = 3 then
    .ok (trimSuffix raw ".git".data)
  else if paths.length = 2 then
    .ok (trimSuffix ("github.com/".data ++ raw) ".git".data)
  else if paths.headD [] = "https:".data ∨ paths.headD [] = "http:".data ∨
      paths.headD [] = "git:".data then
    if 3 ≤ paths.length then
      .ok (trimSuffix (joinSep '/' (paths.drop (paths.length - 3))) ".git".data)
    else
      .panicked
  else
    .invalidFormat raw

/-- Embedding of pathutil.NormalizeLocalRepos. -/
def NormalizeLocalRepos (name : Str) : NormResult :=
  if ¬ (name.contains '/') then
    .ok ("localhost/local/".data ++ name)
  else
    NormalizeRepos name

/-- Embedding of pathutil.CloneURL. -/
def CloneURL (reposPath : Str) : Str :=
  "https://".data ++ toSlash reposPath

/-- Image of one character under the packer replacer
strings.NewReplacer("_", "__", "/", "_"): all patterns are single
characters, so the replacer maps each character independently. -/
def packChar (c : Char) : Str :=
  if c = '_' then ['_', '_'] else if c = '/' then ['_'] else [c]

/-- Semantics of packer.Replace (strings.NewReplacer("_", "__", "/", "_")). -/
def packer (s : Str) : Str := s.flatMap packChar

/-- Semantics of unpacker1.Replace (strings.NewReplacer("_", "/")): a
single-character substitution. -/
def unpacker1 (s : Str) : Str :=
  s.map (fun c => if c = '_' then '/' else c)

/-- Semantics of unpacker2.Replace (strings.NewReplacer("//", "_")):
replace non-overlapping occurrences of two adjacent slashes, scanning
left to right. -/
def unpacker2 : Str → Str
  | [] => []
  | [c] => [c]
  | c1 :: c2 :: rest =>
    if c1 = '/' ∧ c2 = '/' then '_' :: unpacker2 rest
    else c1 :: unpacker2 (c2 :: rest)

/-- Detector for two adjacent slash characters, used to state the
domain on which unpacker2 is the identity. -/
def hasDoubleSlash : Str → Bool
  | [] => false
  | [_] => false
  | c1 :: c2 :: rest =>
    if c1 = '/' ∧ c2 = '/' then true else hasDoubleSlash (c2 :: rest)

/-- Segment-wise core of Go filepath.Clean on a slash-separated path:
empty and dot segments are dropped, a dotdot segment pops the previous
kept segment, is dropped at the root of a rooted path, and is kept at
the head of a relative path.  The accumulator holds the kept segments
in reverse order. -/
def cleanSegs (rooted : Bool) (acc : List Str) : List Str → List Str
  | [] => acc.reverse
  | seg :: rest =>
    if seg = [] ∨ seg = ['.'] then cleanSegs rooted acc rest
    else if seg = ['.', '.'] then
      match acc with
      | [] => if rooted then cleanSegs rooted [] rest else cleanSegs rooted [seg] rest
      | a :: acc2 =>
        if a = ['.', '.'] then cleanSegs rooted (seg :: a :: acc2) rest
        else cleanSegs rooted acc2 rest
    else cleanSegs rooted (seg :: acc) rest

/-- A path is rooted when its first character is a slash. -/
def isRooted (path : Str) : Bool := path.headD ' ' = '/'

/-- Final assembly step of goClean: join the cleaned segments with
slashes, with a leading slash for rooted paths, and a dot (or the root
slash) when nothing remains. -/
def cleanJoin (rooted : Bool) (segs : List Str) : Str :=
  if segs = [] then (if rooted then ['/'] else ['.'])
  else (if rooted then ['/'] else []) ++ joinSep '/' segs

/-- Semantics of Go filepath.Clean on the Unix build, in segment form. -/
def goClean (path : Str) : Str :=
  if path = [] then ['.']
  else cleanJoin (isRooted path) (cleanSegs (isRooted path) [] (splitOnChar '/' path))

/-- Semantics of Go filepath.Join on the Unix build: drop leading empty
elements, join the rest (later empty elements included) with slashes,
and clean; all elements empty gives the empty string. -/
def goJoin (elems : List Str) : Str :=
  if elems.dropWhile (fun e => e = []) = [] then []
  else goClean (joinSep '/' (elems.dropWhile (fun e => e = [])))

/-- Semantics of Go filepath.Base on the Unix build: strip trailing
slashes and keep the part after the last remaining slash; the empty
path gives a dot and an all-slash path gives the root slash. -/
def goBase (path : Str) : Str :=
  if path = [] then ['.']
  else
    let q := path.reverse.dropWhile (fun c => c = '/')
    let r := q.takeWhile (fun c => ¬ c = '/')
    if r = [] then ['/'] else r.reverse

/-- Embedding of pathutil.VimDir.  The runtime.GOOS test is threaded as
the boolean argument windows, and the HomeDir result as the home
argument. -/
def VimDir (windows : Bool) (home : Str) : Str :=
  if windows then goJoin [home, "vimfiles".data]
  else goJoin [home, ".vim".data]

/-- Embedding of pathutil.VimVoltDir. -/
def VimVoltDir (windows : Bool) (home : Str) : Str :=
  goJoin [VimDir windows home, "pack".data, "volt".data]

/-- Embedding of pathutil.VimVoltOptDir. -/
def VimVoltOptDir (windows : Bool) (home : Str) : Str :=
  goJoin [VimDir windows home, "pack".data, "volt".data, "opt".data]

/-- Embedding of pathutil.EncodeReposPath: pack the repository path into
one flat directory name and join it under the opt directory. -/
def EncodeReposPath (windows : Bool) (home : Str) (reposPath : Str) : Str :=
  goJoin [VimVoltOptDir windows home, packer reposPath]

/-- Embedding of pathutil.DecodeReposPath: take the last path component
of the name and apply unpacker1 then unpacker2. -/
def DecodeReposPath (name : Str) : Str :=
  unpacker2 (unpacker1 (goBase name))

/-- Process environment as read by pathutil.HomeDir. -/
structure OsEnv where
  home : Str
  userprofile : Str

/-- Outcome of pathutil.HomeDir: a path, or the panic raised when both
environment variables are empty. -/
inductive HomeResult where
  | ok (path : Str)
  | panicked
  deriving DecidableEq

/-- Embedding of pathutil.HomeDir: HOME when non-empty, else
USERPROFILE when non-empty, else a panic. -/
def HomeDir (env : OsEnv) : HomeResult :=
  if ¬ env.home = [] then .ok env.home
  else if ¬ env.userprofile = [] then .ok env.userprofile
  else .panicked

/-- Embedding of the in-place removal loop shared by LookUpVimrc and
LookUpGvimrc: starting at index i, an element failing the existence
predicate is removed (append v[:i] v[i+1:]) and the index is retried,
otherwise the index advances. -/
def goFilterLoop (p : Str → Bool) (v : List Str) (i : Nat) : List Str :=
  if h : i < v.length then
    if p (v.get ⟨i, h⟩) then goFilterLoop p v (i + 1)
    else goFilterLoop p (v.take i ++ v.drop (i + 1)) i
  else v
termination_by v.length - i
decreasing_by
  · omega
  · simp only [List.length_append, List.length_take, List.length_drop]
    omega

/-- Embedding of pathutil.LookUpVimrc.  The filesystem existence check
pathutil.Exists (os.Lstat based) is threaded as the predicate fs, the
platform test as windows, and the resolved home directory as home. -/
def LookUpVimrc (windows : Bool) (home : Str) (fs : Str → Bool) : List Str :=
  let vimrcPaths :=
    if windows then
      [goJoin [home, "_vimrc".data], goJoin [VimDir windows home, "vimrc".data]]
    else
      [goJoin [home, ".vimrc".data], goJoin [VimDir windows home, "vimrc".data]]
  goFilterLoop fs vimrcPaths 0

/-- Embedding of pathutil.LookUpGvimrc. -/
def LookUpGvimrc (windows : Bool) (home : Str) (fs : Str → Bool) : List Str :=
  let gvimrcPaths :=
    if windows then
      [goJoin [home, "_gvimrc".data], goJoin [VimDir windows home, "gvimrc".data]]
    else
      [goJoin [home, ".gvimrc".data], goJoin [VimDir windows home, "gvimrc".data]]
  goFilterLoop fs gvimrcPaths 0

/-- Spec-side description of the vimrc candidate list: home-relative
dotfile first, then the editor-config-root file. -/
def vimrcCandidates (windows : Bool) (home : Str) : List Str :=
  if windows then
    [goJoin [home, "_vimrc".data], goJoin [VimDir windows home, "vimrc".data]]
  else
    [goJoin [home, ".vimrc".data], goJoin [VimDir windows home, "vimrc".data]]

/-- Spec-side description of the gvimrc candidate list. -/
def gvimrcCandidates (windows : Bool) (home : Str) : List Str :=
  if windows then
    [goJoin [home, "_gvimrc".data], goJoin [VimDir windows home, "gvimrc".data]]
  else
    [goJoin [home, ".gvimrc".data], goJoin [VimDir windows home, "gvimrc".data]]

theorem splitOnChar_ne_nil (c : Char) (s : Str) : splitOnChar c s ≠ [] := by
  cases s with
  | nil => simp [splitOnChar]
  | cons x xs =>
    cases h : splitOnChar c xs with
    | nil => simp [splitOnChar, h]
    | cons hd tl =>
      simp only [splitOnChar, h]
      split <;> simp

theorem length_splitOnChar (c : Char) (s : Str) :
    (splitOnChar c s).length = s.count c + 1 := by
  induction s with
  | nil => simp [splitOnChar]
  | cons x xs ih =>
    cases h : splitOnChar c xs with
    | nil => exact absurd h (splitOnChar_ne_nil c xs)
    | cons hd tl =>
      rw [h] at ih
      simp only [splitOnChar, h]
      by_cases hx : x = c
      · subst hx
        rw [if_pos rfl, List.count_cons_self]
        simp only [List.length_cons]
        simp only [List.length_cons] at ih
        omega
      · rw [if_neg hx, List.count_cons_of_ne (fun he => hx he.symm)]
        simp only [List.length_cons]
        simp only [List.length_cons] at ih
        omega

theorem not_mem_of_mem_splitOnChar (c : Char) (s : Str) :
    ∀ w ∈ splitOnChar c s, c ∉ w := by
  induction s with
  | nil =>
    intro w hw
    simp [splitOnChar] at hw
    simp [hw]
  | cons x xs ih =>
    intro w hw
    cases h : splitOnChar c xs with
    | nil => exact absurd h (splitOnChar_ne_nil c xs)
    | cons hd tl =>
      simp only [splitOnChar, h] at hw
      rw [h] at ih
      by_cases hx : x = c
      · rw [if_pos hx] at hw
        rcases List.mem_cons.mp hw with hw1 | hw2
        · subst hw1; simp
        · exact ih w hw2
      · rw [if_neg hx] at hw
        rcases List.mem_cons.mp hw with hw1 | hw2
        · subst hw1
          intro hc
          rcases List.mem_cons.mp hc with hc1 | hc2
          · exact hx hc1.symm
          · exact ih hd (List.mem_cons_self hd tl) hc2
        · exact ih w (List.mem_cons_of_mem hd hw2)

theorem splitOnChar_eq_singleton {c : Char} {s : Str} (h : c ∉ s) :
    splitOnChar c s = [s] := by
  induction s with
  | nil => simp [splitOnChar]
  | cons x xs ih =>
    have hx : ¬ x = c := fun he => h (he ▸ List.mem_cons_self x xs)
    have hxs : c ∉ xs := fun hm => h (List.mem_cons_of_mem x hm)
    simp only [splitOnChar, ih hxs, if_neg hx]

theorem joinSep_splitOnChar (c : Char) (s : Str) :
    joinSep c (splitOnChar c s) = s := by
  induction s with
  | nil => simp [splitOnChar, joinSep]
  | cons x xs ih =>
    cases h : splitOnChar c xs with
    | nil => exact absurd h (splitOnChar_ne_nil c xs)
    | cons hd tl =>
      rw [h] at ih
      simp only [splitOnChar, h]
      by_cases hx : x = c
      · subst hx
        rw [if_pos rfl]
        show joinSep x ([] :: hd :: tl) = x :: xs
        rw [show joinSep x ([] :: hd :: tl) = [] ++ x :: joinSep x (hd :: tl) from rfl]
        rw [List.nil_append, ih]
      · rw [if_neg hx]
        cases tl with
        | nil =>
          show x :: hd = x :: xs
          rw [show joinSep c [hd] = hd from rfl] at ih
          rw [ih]
        | cons t2 tl2 =>
          show (x :: hd) ++ c :: joinSep c (t2 :: tl2) = x :: xs
          rw [show joinSep c (hd :: t2 :: tl2) = hd ++ c :: joinSep c (t2 :: tl2) from rfl] at ih
          rw [List.cons_append, ih]

theorem splitOnChar_append (c : Char) (xs ys : Str) :
    splitOnChar c (xs ++ c :: ys) = splitOnChar c xs ++ splitOnChar c ys := by
  induction xs with
  | nil =>
    rw [List.nil_append]
    cases h : splitOnChar c ys with
    | nil => exact absurd h (splitOnChar_ne_nil c ys)
    | cons hd tl =>
      simp only [splitOnChar, h, if_pos rfl]
      rfl
  | cons x xs ih =>
    rw [List.cons_append]
    cases h2 : splitOnChar c xs with
    | nil => exact absurd h2 (splitOnChar_ne_nil c xs)
    | cons hd2 tl2 =>
      have hsplit : splitOnChar c (xs ++ c :: ys) = hd2 :: (tl2 ++ splitOnChar c ys) := by
        rw [ih, h2, List.cons_append]
      simp only [splitOnChar, hsplit, h2]
      by_cases hx : x = c
      · rw [if_pos hx, if_pos hx, List.cons_append, List.cons_append]
      · rw [if_neg hx, if_neg hx, List.cons_append]

theorem joinSep_concat (c : Char) {l : List Str} (w : Str) (h : l ≠ []) :
    joinSep c (l ++ [w]) = joinSep c l ++ c :: w := by
  induction l with
  | nil => exact absurd rfl h
  | cons x l ih =>
    cases l with
    | nil => rfl
    | cons y l2 =>
      rw [List.cons_append]
      show x ++ c :: joinSep c ((y :: l2) ++ [w]) = (x ++ c :: joinSep c (y :: l2)) ++ c :: w
      rw [ih (by simp), List.append_assoc, List.cons_append]

theorem joinSep_append (c : Char) {l1 l2 : List Str} (h1 : l1 ≠ []) (h2 : l2 ≠ []) :
    joinSep c (l1 ++ l2) = joinSep c l1 ++ c :: joinSep c l2 := by
  induction l1 with
  | nil => exact absurd rfl h1
  | cons x l ih =>
    cases l with
    | nil =>
      cases l2 with
      | nil => exact absurd rfl h2
      | cons y t =>
        show x ++ c :: joinSep c (y :: t) = joinSep c [x] ++ c :: joinSep c (y :: t)
        rfl
    | cons z zs =>
      rw [List.cons_append]
      show x ++ c :: joinSep c ((z :: zs) ++ l2) =
        (x ++ c :: joinSep c (z :: zs)) ++ c :: joinSep c l2
      rw [ih (by simp), List.append_assoc, List.cons_append]

theorem trimSuffix_concat (t suffix : Str) : trimSuffix (t ++ suffix) suffix = t := by
  unfold trimSuffix
  rw [if_pos (List.isSuffixOf_iff_suffix.mpr ⟨t, rfl⟩)]
  have hl : (t ++ suffix).length - suffix.length = t.length := by
    rw [List.length_append]; omega
  rw [hl, List.take_left]

theorem trimSuffix_eq_self {s suffix : Str} (h : ¬ suffix <:+ s) :
    trimSuffix s suffix = s := by
  unfold trimSuffix
  rw [if_neg]
  intro hb
  exact h (List.isSuffixOf_iff_suffix.mp hb)

theorem trimSuffix_cases (s suffix : Str) :
    (suffix <:+ s ∧ trimSuffix s suffix ++ suffix = s) ∨
      (¬ suffix <:+ s ∧ trimSuffix s suffix = s) := by
  by_cases h : suffix <:+ s
  · left
    refine ⟨h, ?_⟩
    obtain ⟨t, rfl⟩ := h
    rw [trimSuffix_concat]
  · exact Or.inr ⟨h, trimSuffix_eq_self h⟩

theorem suffix_of_append_cons {suffix a b : Str} {c : Char} (hc : c ∉ suffix)
    (h : suffix <:+ a ++ c :: b) : suffix <:+ b := by
  by_cases hl : suffix.length ≤ b.length
  · exact List.suffix_of_suffix_length_le h ⟨a ++ [c], by simp⟩ hl
  · have h3 : c :: b <:+ suffix :=
      List.suffix_of_suffix_length_le ⟨a, rfl⟩ h (by simp only [List.length_cons]; omega)
    exact absurd (h3.subset (List.mem_cons_self c b)) hc

theorem count_trimSuffix_dotGit (s : Str) :
    (trimSuffix s ".git".data).count '/' = s.count '/' := by
  rcases trimSuffix_cases s ".git".data with ⟨_, heq⟩ | ⟨_, heq⟩
  · have h0 : ((".git".data : Str)).count '/' = 0 := by decide
    have hc := congrArg (fun l : Str => l.count '/') heq
    simp only at hc
    rw [List.count_append, h0] at hc
    exact hc
  · rw [heq]

theorem normalizeRepos_len3 {raw : Str} (h : (splitOnChar '/' raw).length = 3) :
    NormalizeRepos raw = .ok (trimSuffix raw ".git".data) := by
  simp only [NormalizeRepos, toSlash]
  rw [if_pos h]

theorem normalizeRepos_len2 {raw : Str} (h : (splitOnChar '/' raw).length = 2) :
    NormalizeRepos raw = .ok (trimSuffix ("github.com/".data ++ raw) ".git".data) := by
  simp only [NormalizeRepos, toSlash]
  rw [if_neg (by omega), if_pos h]

theorem normalizeRepos_scheme {raw : Str}
    (h3 : ¬ (splitOnChar '/' raw).length = 3) (h2 : ¬ (splitOnChar '/' raw).length = 2)
    (hs : (splitOnChar '/' raw).headD [] = "https:".data ∨
      (splitOnChar '/' raw).headD [] = "http:".data ∨
      (splitOnChar '/' raw).headD [] = "git:".data)
    (hge : 3 ≤ (splitOnChar '/' raw).length) :
    NormalizeRepos raw =
      .ok (trimSuffix
        (joinSep '/' ((splitOnChar '/' raw).drop ((splitOnChar '/' raw).length - 3)))
        ".git".data) := by
  simp only [NormalizeRepos, toSlash]
  rw [if_neg h3, if_neg h2, if_pos hs, if_pos hge]

theorem normalizeRepos_ok_inv {raw r : Str} (h : NormalizeRepos raw = .ok r) :
    ((splitOnChar '/' raw).length = 3 ∧ r = trimSuffix raw ".git".data) ∨
    ((splitOnChar '/' raw).length = 2 ∧
      r = trimSuffix ("github.com/".data ++ raw) ".git".data) ∨
    (4 ≤ (splitOnChar '/' raw).length ∧
      r = trimSuffix
        (joinSep '/' ((splitOnChar '/' raw).drop ((splitOnChar '/' raw).length - 3)))
        ".git".data) := by
  simp only [NormalizeRepos, toSlash] at h
  split_ifs at h with h3 h2 hs hge
  · exact Or.inl ⟨h3, (NormResult.ok.injEq _ _ ▸ h).symm⟩
  · exact Or.inr (Or.inl ⟨h2, (NormResult.ok.injEq _ _ ▸ h).symm⟩)
  · exact Or.inr (Or.inr ⟨by omega, (NormResult.ok.injEq _ _ ▸ h).symm⟩)

theorem normalizeRepos_ok_count {raw r : Str} (h : NormalizeRepos raw = .ok r) :
    r.count '/' = 2 := by
  have hlen := length_splitOnChar '/' raw
  rcases normalizeRepos_ok_inv h with ⟨h3, rfl⟩ | ⟨h2, rfl⟩ | ⟨hge, rfl⟩
  · rw [count_trimSuffix_dotGit]
    omega
  · rw [count_trimSuffix_dotGit, List.count_append]
    have hgh : (("github.com/".data : Str)).count '/' = 1 := by decide
    omega
  · rw [count_trimSuffix_dotGit]
    have hdlen : ((splitOnChar '/' raw).drop ((splitOnChar '/' raw).length - 3)).length = 3 := by
      rw [List.length_drop]
      omega
    obtain ⟨a, b, w, habw⟩ := List.length_eq_three.mp hdlen
    have hsub : ∀ x ∈ (splitOnChar '/' raw).drop ((splitOnChar '/' raw).length - 3),
        '/' ∉ x := fun x hx =>
      not_mem_of_mem_splitOnChar '/' raw x (List.drop_subset _ _ hx)
    have ha : '/' ∉ a := hsub a (by rw [habw]; simp)
    have hb : '/' ∉ b := hsub b (by rw [habw]; simp)
    have hw : '/' ∉ w := hsub w (by rw [habw]; simp)
    rw [habw]
    show (a ++ '/' :: (b ++ '/' :: w)).count '/' = 2
    rw [List.count_append, List.count_cons_self, List.count_append, List.count_cons_self]
    rw [List.count_eq_zero.mpr ha, List.count_eq_zero.mpr hb, List.count_eq_zero.mpr hw]

theorem normalizeRepos_ok_segments {raw r : Str} (h : NormalizeRepos raw = .ok r) :
    (splitOnChar '/' r).length = 3 := by
  rw [length_splitOnChar, normalizeRepos_ok_count h]

theorem dotgitgit_of_trim {s : Str} (h : ".git".data <:+ trimSuffix s ".git".data) :
    ".git.git".data <:+ s := by
  rcases trimSuffix_cases s ".git".data with ⟨_, heq⟩ | ⟨hs, heq⟩
  · obtain ⟨t, ht⟩ := h
    refine ⟨t, ?_⟩
    have hcat : ((".git".data : Str)) ++ ".git".data = ".git.git".data := by decide
    calc t ++ ".git.git".data
        = (t ++ ".git".data) ++ ".git".data := by rw [List.append_assoc, hcat]
      _ = trimSuffix s ".git".data ++ ".git".data := by rw [ht]
      _ = s := heq
  · rw [heq] at h
    exact absurd h hs

/-- C1: the Go code is expected to return either a normalized path or an
invalid-format error on every input, but the single-segment scheme
tokens reach the slice paths[len(paths)-3:] with len(paths) = 1 and
panic; an ordinary unrecognized single segment is rejected with the
invalid-format error as documented. -/
theorem normalizeRepos_single_scheme_panics :
    NormalizeRepos "git:".data = .panicked ∧
    NormalizeRepos "http:".data = .panicked ∧
    NormalizeRepos "https:".data = .panicked ∧
    NormalizeRepos "abc".data = .invalidFormat "abc".data := by
  refine ⟨by decide, by decide, by decide, by decide⟩

/-- C2 (amended): NormalizeRepos is idempotent on every input whose
successful result does not end in ".git"; the trim step removes only
one trailing ".git", so a result that still ends in ".git" (input ended
in ".git.git") is trimmed again on the second run. -/
theorem normalizeRepos_idempotent {x r : Str} (hx : NormalizeRepos x = .ok r)
    (hg : ¬ ".git".data <:+ r) : NormalizeRepos r = .ok r := by
  rw [normalizeRepos_len3 (normalizeRepos_ok_segments hx), trimSuffix_eq_self hg]

theorem normalizeRepos_idempotent_witness :
    NormalizeRepos "a/b".data = .ok "github.com/a/b".data ∧
    ¬ ".git".data <:+ ("github.com/a/b".data : Str) ∧
    NormalizeRepos "github.com/a/b".data = .ok "github.com/a/b".data :=
  ⟨by decide, by decide,
    @normalizeRepos_idempotent "a/b".data "github.com/a/b".data (by decide) (by decide)⟩

/-- C2 counterexample: "a/b/c.git.git" normalizes successfully to
"a/b/c.git", but re-normalizing that result gives "a/b/c", so
normalization is not idempotent on this accepted input. -/
theorem normalizeRepos_idempotence_cex :
    NormalizeRepos "a/b/c.git.git".data = .ok "a/b/c.git".data ∧
    NormalizeRepos "a/b/c.git".data = .ok "a/b/c".data ∧
    ("a/b/c".data : Str) ≠ "a/b/c.git".data := by
  refine ⟨by decide, by decide, by decide⟩

/-- C3 (amended): every successful NormalizeRepos result has exactly
three slash-separated segments (hence three or more); and since only a
single trailing ".git" is stripped, the result can end in ".git" only
when the raw input ends in ".git.git".  A scheme prefix can survive
when the raw input itself splits into exactly three segments. -/
theorem normalizeRepos_ok_shape {raw r : Str} (h : NormalizeRepos raw = .ok r) :
    3 ≤ (splitOnChar '/' r).length ∧
      (¬ ".git.git".data <:+ raw → ¬ ".git".data <:+ r) := by
  constructor
  · exact (normalizeRepos_ok_segments h).symm.le
  · intro hraw hr
    apply hraw
    rcases normalizeRepos_ok_inv h with ⟨h3, rfl⟩ | ⟨h2, rfl⟩ | ⟨hge, rfl⟩
    · exact dotgitgit_of_trim hr
    · have hgg := dotgitgit_of_trim hr
      by_cases hl : ((".git.git".data : Str)).length ≤ raw.length
      · exact List.suffix_of_suffix_length_le hgg ⟨"github.com/".data, rfl⟩ hl
      · exfalso
        have hmem : '/' ∈ raw := by
          have hls := length_splitOnChar '/' raw
          rw [h2] at hls
          exact List.count_pos_iff.mp (by omega)
        have hsub : raw <:+ (".git.git".data : Str) :=
          List.suffix_of_suffix_length_le ⟨"github.com/".data, rfl⟩ hgg (by omega)
        have hin : '/' ∈ ((".git.git".data : Str)) := hsub.subset hmem
        revert hin
        decide
    · have hgg := dotgitgit_of_trim hr
      have htake_ne : (splitOnChar '/' raw).take ((splitOnChar '/' raw).length - 3) ≠ [] := by
        intro hnil
        have hle := congrArg List.length hnil
        rw [List.length_take] at hle
        simp only [List.length_nil] at hle
        omega
      have hdrop_ne : (splitOnChar '/' raw).drop ((splitOnChar '/' raw).length - 3) ≠ [] := by
        intro hnil
        have hle := congrArg List.length hnil
        rw [List.length_drop] at hle
        simp only [List.length_nil] at hle
        omega
      have hjoin : raw =
          joinSep '/' ((splitOnChar '/' raw).take ((splitOnChar '/' raw).length - 3)) ++
            '/' :: joinSep '/' ((splitOnChar '/' raw).drop ((splitOnChar '/' raw).length - 3)) := by
        conv_lhs => rw [← joinSep_splitOnChar '/' raw]
        rw [← List.take_append_drop ((splitOnChar '/' raw).length - 3) (splitOnChar '/' raw),
          joinSep_append '/' htake_ne hdrop_ne]
        rw [List.take_append_drop]
      refine hgg.trans
        ⟨joinSep '/' ((splitOnChar '/' raw).take ((splitOnChar '/' raw).length - 3)) ++ ['/'], ?_⟩
      rw [List.append_assoc]
      exact hjoin.symm

theorem normalizeRepos_ok_shape_witness :
    NormalizeRepos "u/n.git".data = .ok "github.com/u/n".data ∧
    ¬ ".git.git".data <:+ ("u/n.git".data : Str) ∧
    (3 ≤ (splitOnChar '/' ("github.com/u/n".data : Str)).length ∧
      (¬ ".git.git".data <:+ ("u/n.git".data : Str) →
        ¬ ".git".data <:+ ("github.com/u/n".data : Str))) :=
  ⟨by decide, by decide, normalizeRepos_ok_shape (by decide)⟩

/-- C3 counterexample: "https://a.git.git" splits into exactly three
segments, so it is returned after a single ".git" trim: the successful
result "https://a.git" both ends in ".git" and starts with the scheme
prefix "https:", violating the claimed canonical shape. -/
theorem normalizeRepos_shape_cex :
    NormalizeRepos "https://a.git.git".data = .ok "https://a.git".data ∧
    ".git".data <:+ ("https://a.git".data : Str) ∧
    "https:".data <+: ("https://a.git".data : Str) := by
  refine ⟨by decide, by decide, by decide⟩

/-- C7: NormalizeLocalRepos wraps a slash-free name as a local
repository path without any validation, and delegates every name
containing a slash to NormalizeRepos. -/
theorem normalizeLocalRepos_spec :
    (∀ name : Str, '/' ∉ name →
      NormalizeLocalRepos name = .ok ("localhost/local/".data ++ name)) ∧
    (∀ name : Str, '/' ∈ name → NormalizeLocalRepos name = NormalizeRepos name) ∧
    NormalizeLocalRepos "myplugin".data = .ok "localhost/local/myplugin".data ∧
    NormalizeLocalRepos "a/b".data = .ok "github.com/a/b".data := by
  refine ⟨?_, ?_, by decide, by decide⟩
  · intro name h
    simp [NormalizeLocalRepos, List.contains, h]
  · intro name h
    simp [NormalizeLocalRepos, List.contains, h]

theorem normalizeLocalRepos_spec_witness :
    ('/' ∉ ("myplugin".data : Str) ∧
      NormalizeLocalRepos "myplugin".data = .ok "localhost/local/myplugin".data) ∧
    ('/' ∈ ("a/b".data : Str) ∧
      NormalizeLocalRepos "a/b".data = NormalizeRepos "a/b".data) :=
  ⟨⟨by decide, normalizeLocalRepos_spec.1 _ (by decide)⟩,
   ⟨by decide, normalizeLocalRepos_spec.2.1 _ (by decide)⟩⟩

/-- C8: HomeDir returns the HOME variable when non-empty, otherwise the
USERPROFILE variable when non-empty, and panics (rather than returning
an ordinary error) when both are empty. -/
theorem homeDir_spec :
    (∀ env : OsEnv, ¬ env.home = [] → HomeDir env = .ok env.home) ∧
    (∀ env : OsEnv, env.home = [] → ¬ env.userprofile = [] →
      HomeDir env = .ok env.userprofile) ∧
    (∀ env : OsEnv, env.home = [] → env.userprofile = [] → HomeDir env = .panicked) := by
  refine ⟨?_, ?_, ?_⟩
  · intro env h
    simp [HomeDir, h]
  · intro env h1 h2
    simp [HomeDir, h1, h2]
  · intro env h1 h2
    simp [HomeDir, h1, h2]

theorem homeDir_spec_witness :
    HomeDir ⟨"/home/u".data, []⟩ = .ok "/home/u".data ∧
    HomeDir ⟨[], "C:\\u".data⟩ = .ok "C:\\u".data ∧
    HomeDir ⟨[], []⟩ = .panicked :=
  ⟨homeDir_spec.1 _ (by decide), homeDir_spec.2.1 _ rfl (by decide),
   homeDir_spec.2.2 _ rfl rfl⟩

/-- C10: NormalizeRepos accepts every input whose slash-split has
exactly two or exactly three segments without inspecting segment
contents; in particular inputs with empty segments are accepted and
their empty components survive in the output. -/
theorem normalizeRepos_accepts_two_or_three_segments :
    (∀ s : Str, (splitOnChar '/' s).length = 2 ∨ (splitOnChar '/' s).length = 3 →
      ∃ r, NormalizeRepos s = .ok r) ∧
    NormalizeRepos "a/".data = .ok "github.com/a/".data ∧
    NormalizeRepos "a//b".data = .ok "a//b".data := by
  refine ⟨?_, by decide, by decide⟩
  intro s hs
  rcases hs with h2 | h3
  · exact ⟨_, normalizeRepos_len2 h2⟩
  · exact ⟨_, normalizeRepos_len3 h3⟩

theorem normalizeRepos_accepts_witness :
    ((splitOnChar '/' ("x/y".data : Str)).length = 2 ∨
      (splitOnChar '/' ("x/y".data : Str)).length = 3) ∧
    (∃ r, NormalizeRepos "x/y".data = .ok r) :=
  ⟨by decide, normalizeRepos_accepts_two_or_three_segments.1 _ (by decide)⟩

theorem splitOnChar_cons_sep (c : Char) (ys : Str) :
    splitOnChar c (c :: ys) = [] :: splitOnChar c ys := by
  have h := splitOnChar_append c [] ys
  rw [List.nil_append] at h
  rw [h]
  rfl

/-- C5 (amended): CloneURL of any successfully normalized identifier
begins with "https://"; and whenever the identifier itself contains no
colon, the resulting URL contains exactly one colon, hence exactly one
scheme token.  (An identifier that retains a scheme, such as the
normalization of "git://a", makes the URL carry a second scheme.) -/
theorem cloneURL_spec {raw r : Str} (_h : NormalizeRepos raw = .ok r) :
    "https://".data <+: CloneURL r ∧
      (':' ∉ r → (CloneURL r).count ':' = 1) := by
  constructor
  · exact ⟨r, rfl⟩
  · intro hc
    show (("https://".data : Str) ++ r).count ':' = 1
    rw [List.count_append, List.count_eq_zero.mpr hc]
    decide

theorem cloneURL_spec_witness :
    NormalizeRepos "a/b".data = .ok "github.com/a/b".data ∧
    ':' ∉ ("github.com/a/b".data : Str) ∧
    ("https://".data <+: CloneURL "github.com/a/b".data ∧
      (':' ∉ ("github.com/a/b".data : Str) →
        (CloneURL "github.com/a/b".data).count ':' = 1)) :=
  ⟨by decide, by decide,
    @cloneURL_spec "a/b".data "github.com/a/b".data (by decide)⟩

/-- C5 counterexample: "git://a" splits into exactly three segments, so
NormalizeRepos returns it unchanged; its clone URL is
"https://git://a", which contains the scheme token "git:" in addition
to "https:" (two colons), a scheme duplication. -/
theorem cloneURL_scheme_dup_cex :
    NormalizeRepos "git://a".data = .ok "git://a".data ∧
    CloneURL "git://a".data = "https://git://a".data ∧
    (CloneURL "git://a".data).count ':' = 2 := by
  refine ⟨by decide, by decide, by decide⟩

/-- C6: every raw input of the shape scheme://host/owner/name with
scheme in {http, https, git}, optionally ending in ".git", normalizes
successfully to host/owner/name: exactly the final three slash
components are kept and one trailing ".git" is stripped. -/
theorem normalizeRepos_url_form (scheme host owner name suffix : Str)
    (hs : scheme = "http".data ∨ scheme = "https".data ∨ scheme = "git".data)
    (hh : '/' ∉ host) (ho : '/' ∉ owner) (hn : '/' ∉ name)
    (hsuf : suffix = [] ∨ suffix = ".git".data)
    (hng : ¬ ".git".data <:+ name) :
    NormalizeRepos
        (scheme ++ ':' :: '/' :: '/' :: (host ++ '/' :: (owner ++ '/' :: (name ++ suffix)))) =
      .ok (host ++ '/' :: (owner ++ '/' :: name)) := by
  have hA : '/' ∉ scheme ++ [':'] := by
    rcases hs with rfl | rfl | rfl <;> decide
  have hn2 : '/' ∉ name ++ suffix := by
    intro hm
    rcases List.mem_append.mp hm with hm | hm
    · exact hn hm
    · rcases hsuf with rfl | rfl
      · simp at hm
      · revert hm
        decide
  have hsplit : splitOnChar '/'
      (scheme ++ ':' :: '/' :: '/' :: (host ++ '/' :: (owner ++ '/' :: (name ++ suffix)))) =
      [scheme ++ [':'], [], host, owner, name ++ suffix] := by
    rw [show scheme ++ ':' :: '/' :: '/' :: (host ++ '/' :: (owner ++ '/' :: (name ++ suffix))) =
        (scheme ++ [':']) ++ '/' :: ('/' :: (host ++ '/' :: (owner ++ '/' :: (name ++ suffix))))
      from by rw [List.append_assoc]; rfl]
    rw [splitOnChar_append, splitOnChar_cons_sep, splitOnChar_append, splitOnChar_append]
    rw [splitOnChar_eq_singleton hA, splitOnChar_eq_singleton hh, splitOnChar_eq_singleton ho,
      splitOnChar_eq_singleton hn2]
    rfl
  have hres := @normalizeRepos_scheme
      (scheme ++ ':' :: '/' :: '/' :: (host ++ '/' :: (owner ++ '/' :: (name ++ suffix))))
    (by rw [hsplit]; simp) (by rw [hsplit]; simp)
    (by
      rw [hsplit, List.headD_cons]
      rcases hs with rfl | rfl | rfl
      · exact Or.inr (Or.inl (by decide))
      · exact Or.inl (by decide)
      · exact Or.inr (Or.inr (by decide)))
    (by rw [hsplit]; simp)
  rw [hsplit] at hres
  rw [hres]
  show NormResult.ok
      (trimSuffix (host ++ '/' :: (owner ++ '/' :: (name ++ suffix))) ".git".data) = _
  rcases hsuf with rfl | rfl
  · rw [List.append_nil]
    rw [trimSuffix_eq_self]
    intro hsfx
    have hd1 : '/' ∉ (".git".data : Str) := by decide
    exact hng (suffix_of_append_cons hd1 (suffix_of_append_cons hd1 hsfx))
  · rw [show host ++ '/' :: (owner ++ '/' :: (name ++ ".git".data)) =
        (host ++ '/' :: (owner ++ '/' :: name)) ++ ".git".data
      from by simp]
    rw [trimSuffix_concat]

theorem normalizeRepos_url_form_witness :
    (("git".data : Str) = "http".data ∨ ("git".data : Str) = "https".data ∨
      ("git".data : Str) = "git".data) ∧
    '/' ∉ ("github.com".data : Str) ∧ '/' ∉ ("u".data : Str) ∧ '/' ∉ ("n".data : Str) ∧
    ((".git".data : Str) = [] ∨ (".git".data : Str) = ".git".data) ∧
    ¬ ".git".data <:+ ("n".data : Str) ∧
    NormalizeRepos
        ("git".data ++ ':' :: '/' :: '/' ::
          ("github.com".data ++ '/' :: ("u".data ++ '/' :: ("n".data ++ ".git".data)))) =
      .ok ("github.com".data ++ '/' :: ("u".data ++ '/' :: "n".data)) :=
  ⟨by decide, by decide, by decide, by decide, by decide, by decide,
    normalizeRepos_url_form "git".data "github.com".data "u".data "n".data ".git".data
      (by decide) (by decide) (by decide) (by decide) (by decide) (by decide)⟩

theorem takeWhile_append_cons {P : Char → Bool} {a b : Str} {c : Char}
    (ha : ∀ x ∈ a, P x = true) (hc : P c = false) :
    (a ++ c :: b).takeWhile P = a := by
  induction a with
  | nil => simp [List.takeWhile_cons, hc]
  | cons x xs ih =>
    rw [List.cons_append, List.takeWhile_cons, ha x (List.mem_cons_self x xs)]
    rw [ih (fun y hy => ha y (List.mem_cons_of_mem x hy))]
    rfl

theorem takeWhile_eq_self_of_all {P : Char → Bool} {a : Str}
    (ha : ∀ x ∈ a, P x = true) : a.takeWhile P = a := by
  induction a with
  | nil => rfl
  | cons x xs ih =>
    rw [List.takeWhile_cons, ha x (List.mem_cons_self x xs)]
    rw [ih (fun y hy => ha y (List.mem_cons_of_mem x hy))]
    rfl

theorem goBase_append_cons {u w : Str} (hw : '/' ∉ w) (hne : w ≠ []) :
    goBase (u ++ '/' :: w) = w := by
  have hrev : (u ++ '/' :: w).reverse = w.reverse ++ '/' :: u.reverse := by
    rw [List.reverse_append, List.reverse_cons, List.append_assoc, List.singleton_append]
  simp only [goBase]
  rw [if_neg (by simp), hrev]
  cases hwr : w.reverse with
  | nil => exact absurd (by simpa using congrArg List.reverse hwr) hne
  | cons y ys =>
    have hy : ¬ y = '/' := by
      intro he
      exact hw (List.mem_reverse.mp (hwr ▸ he ▸ List.mem_cons_self y ys))
    have hcond : ¬ (decide (y = '/') = true) := by simp [hy]
    rw [List.cons_append, List.dropWhile_cons, if_neg hcond]
    have htw : ((y :: ys) ++ '/' :: u.reverse).takeWhile (fun c => ¬ c = '/') = y :: ys := by
      apply takeWhile_append_cons
      · intro x hx
        have hxw : x ∈ w := List.mem_reverse.mp (hwr ▸ hx)
        have hx2 : ¬ x = '/' := fun he => hw (he ▸ hxw)
        simp [hx2]
      · decide
    rw [List.cons_append] at htw
    rw [htw]
    rw [if_neg (by simp)]
    rw [← hwr, List.reverse_reverse]

theorem goBase_of_not_slash {w : Str} (hw : '/' ∉ w) (hne : w ≠ []) : goBase w = w := by
  simp only [goBase]
  rw [if_neg hne]
  cases hwr : w.reverse with
  | nil => exact absurd (by simpa using congrArg List.reverse hwr) hne
  | cons y ys =>
    have hy : ¬ y = '/' := by
      intro he
      exact hw (List.mem_reverse.mp (hwr ▸ he ▸ List.mem_cons_self y ys))
    have hcond : ¬ (decide (y = '/') = true) := by simp [hy]
    rw [List.dropWhile_cons, if_neg hcond]
    have htw : (y :: ys).takeWhile (fun c => ¬ c = '/') = y :: ys := by
      apply takeWhile_eq_self_of_all
      intro x hx
      have hxw : x ∈ w := List.mem_reverse.mp (hwr ▸ hx)
      have hx2 : ¬ x = '/' := fun he => hw (he ▸ hxw)
      simp [hx2]
    rw [htw]
    rw [if_neg (by simp)]
    rw [← hwr, List.reverse_reverse]

theorem cleanSegs_append_normal {w : Str} (h0 : w ≠ []) (h1 : w ≠ ['.'])
    (h2 : w ≠ ['.', '.']) (rooted : Bool) : ∀ (l acc : List Str),
    cleanSegs rooted acc (l ++ [w]) = cleanSegs rooted acc l ++ [w] := by
  intro l
  induction l with
  | nil =>
    intro acc
    rw [List.nil_append]
    show cleanSegs rooted acc [w] = acc.reverse ++ [w]
    simp only [cleanSegs]
    rw [if_neg (by simp [h0, h1]), if_neg h2]
    show (w :: acc).reverse = acc.reverse ++ [w]
    rw [List.reverse_cons]
  | cons seg rest ih =>
    intro acc
    rw [List.cons_append]
    simp only [cleanSegs]
    by_cases hc1 : seg = [] ∨ seg = ['.']
    · rw [if_pos hc1, if_pos hc1]
      exact ih acc
    · rw [if_neg hc1, if_neg hc1]
      by_cases hc2 : seg = ['.', '.']
      · rw [if_pos hc2, if_pos hc2]
        cases acc with
        | nil =>
          show (if rooted then cleanSegs rooted [] (rest ++ [w])
              else cleanSegs rooted [seg] (rest ++ [w])) =
            (if rooted then cleanSegs rooted [] rest
              else cleanSegs rooted [seg] rest) ++ [w]
          cases rooted with
          | false =>
            rw [if_neg (by simp), if_neg (by simp)]
            exact ih _
          | true =>
            rw [if_pos rfl, if_pos rfl]
            exact ih _
        | cons a acc2 =>
          show (if a = ['.', '.'] then cleanSegs rooted (seg :: a :: acc2) (rest ++ [w])
              else cleanSegs rooted acc2 (rest ++ [w])) =
            (if a = ['.', '.'] then cleanSegs rooted (seg :: a :: acc2) rest
              else cleanSegs rooted acc2 rest) ++ [w]
          by_cases ha : a = ['.', '.']
          · rw [if_pos ha, if_pos ha]
            exact ih _
          · rw [if_neg ha, if_neg ha]
            exact ih _
      · rw [if_neg hc2, if_neg hc2]
        exact ih _

theorem goBase_goClean_append {s w : Str} (hw : '/' ∉ w) (h0 : w ≠ []) (h1 : w ≠ ['.'])
    (h2 : w ≠ ['.', '.']) : goBase (goClean (s ++ '/' :: w)) = w := by
  simp only [goClean]
  rw [if_neg (by simp)]
  rw [splitOnChar_append, splitOnChar_eq_singleton hw]
  rw [cleanSegs_append_normal h0 h1 h2]
  generalize isRooted (s ++ '/' :: w) = b
  generalize cleanSegs b [] (splitOnChar '/' s) = P
  cases P with
  | nil =>
    show goBase (cleanJoin b [w]) = w
    simp only [cleanJoin]
    rw [if_neg (by simp)]
    cases b with
    | false =>
      rw [if_neg (by simp), List.nil_append]
      show goBase w = w
      exact goBase_of_not_slash hw h0
    | true =>
      rw [if_pos rfl]
      show goBase ([] ++ '/' :: w) = w
      exact goBase_append_cons hw h0
  | cons p ps =>
    show goBase (cleanJoin b ((p :: ps) ++ [w])) = w
    simp only [cleanJoin]
    rw [if_neg (by simp)]
    rw [joinSep_concat '/' w (by simp)]
    cases b with
    | false =>
      rw [if_neg (by simp), List.nil_append]
      exact goBase_append_cons hw h0
    | true =>
      rw [if_pos rfl, ← List.append_assoc]
      exact goBase_append_cons hw h0

theorem goBase_goClean_single {w : Str} (hw : '/' ∉ w) (h0 : w ≠ []) (h1 : w ≠ ['.'])
    (h2 : w ≠ ['.', '.']) : goBase (goClean w) = w := by
  simp only [goClean]
  rw [if_neg h0, splitOnChar_eq_singleton hw]
  have hr : isRooted w = false := by
    cases w with
    | nil => exact absurd rfl h0
    | cons x xs =>
      have hx : ¬ x = '/' := fun he => hw (he ▸ List.mem_cons_self x xs)
      simp [isRooted, hx]
  rw [hr]
  show goBase (cleanJoin false (cleanSegs false [] [w])) = w
  have hsegs : cleanSegs false [] [w] = [w] := by
    simp only [cleanSegs]
    rw [if_neg (by simp [h0, h1]), if_neg h2]
    rfl
  rw [hsegs]
  simp only [cleanJoin]
  rw [if_neg (by simp), if_neg (by simp), List.nil_append]
  show goBase w = w
  exact goBase_of_not_slash hw h0

theorem goBase_goJoin_pair {s w : Str} (hw : '/' ∉ w) (h0 : w ≠ []) (h1 : w ≠ ['.'])
    (h2 : w ≠ ['.', '.']) : goBase (goJoin [s, w]) = w := by
  by_cases hs : s = []
  · subst hs
    have hd : (([[], w] : List Str)).dropWhile (fun e => e = []) = [w] := by
      simp [List.dropWhile_cons, h0]
    simp only [goJoin, hd]
    rw [if_neg (by simp)]
    show goBase (goClean w) = w
    exact goBase_goClean_single hw h0 h1 h2
  · have hd : (([s, w] : List Str)).dropWhile (fun e => e = []) = [s, w] := by
      simp [List.dropWhile_cons, hs]
    simp only [goJoin, hd]
    rw [if_neg (by simp)]
    show goBase (goClean (s ++ '/' :: w)) = w
    exact goBase_goClean_append hw h0 h1 h2

theorem packer_eq_map {s : Str} (h : '_' ∉ s) :
    packer s = s.map (fun c => if c = '/' then '_' else c) := by
  induction s with
  | nil => rfl
  | cons x xs ih =>
    have hx : ¬ x = '_' := fun he => h (he ▸ List.mem_cons_self x xs)
    have hxs : '_' ∉ xs := fun hm => h (List.mem_cons_of_mem x hm)
    have hstep : packer (x :: xs) = packChar x ++ packer xs := by
      simp [packer]
    rw [hstep, List.map_cons, ih hxs]
    unfold packChar
    rw [if_neg hx]
    by_cases hsl : x = '/'
    · rw [if_pos hsl, if_pos hsl]
      rfl
    · rw [if_neg hsl, if_neg hsl]
      rfl

theorem not_slash_mem_packer (s : Str) : '/' ∉ packer s := by
  intro hm
  simp only [packer] at hm
  rw [List.mem_flatMap] at hm
  obtain ⟨a, _, hin⟩ := hm
  unfold packChar at hin
  by_cases h1 : a = '_'
  · rw [if_pos h1] at hin
    revert hin
    decide
  · rw [if_neg h1] at hin
    by_cases h2 : a = '/'
    · rw [if_pos h2] at hin
      revert hin
      decide
    · rw [if_neg h2] at hin
      exact h2 (List.mem_singleton.mp hin).symm

theorem map_eq_singleton_inv {f : Char → Char} {l : Str} {c : Char} (h : l.map f = [c]) :
    ∃ a, l = [a] ∧ f a = c := by
  cases l with
  | nil => simp at h
  | cons x xs =>
    cases xs with
    | nil =>
      rw [List.map_cons, List.map_nil] at h
      exact ⟨x, rfl, (List.cons.injEq _ _ _ _ ▸ h).1⟩
    | cons y ys => simp at h

theorem map_eq_pair_inv {f : Char → Char} {l : Str} {c d : Char} (h : l.map f = [c, d]) :
    ∃ a b, l = [a, b] ∧ f a = c ∧ f b = d := by
  cases l with
  | nil => simp at h
  | cons x xs =>
    cases xs with
    | nil => simp at h
    | cons y ys =>
      cases ys with
      | nil =>
        simp only [List.map_cons, List.map_nil, List.cons.injEq, List.nil_eq] at h
        exact ⟨x, y, rfl, h.1, h.2.1⟩
      | cons z zs => simp at h

theorem unpacker1_packer {s : Str} (h : '_' ∉ s) : unpacker1 (packer s) = s := by
  induction s with
  | nil => rfl
  | cons x xs ih =>
    have hx : ¬ x = '_' := fun he => h (he ▸ List.mem_cons_self x xs)
    have hxs : '_' ∉ xs := fun hm => h (List.mem_cons_of_mem x hm)
    have hstep : packer (x :: xs) = packChar x ++ packer xs := by
      simp [packer]
    rw [hstep]
    show (packChar x ++ packer xs).map (fun c => if c = '_' then '/' else c) = x :: xs
    rw [List.map_append]
    have h2 : (packChar x).map (fun c => if c = '_' then '/' else c) = [x] := by
      unfold packChar
      by_cases hsl : x = '/'
      · rw [if_neg hx, if_pos hsl, hsl]
        rfl
      · rw [if_neg hx, if_neg hsl]
        show [if x = '_' then '/' else x] = [x]
        rw [if_neg hx]
    have h3 : (packer xs).map (fun c => if c = '_' then '/' else c) = xs := ih hxs
    rw [h2, h3, List.singleton_append]

theorem unpacker2_eq_self (s : Str) (h : hasDoubleSlash s = false) : unpacker2 s = s := by
  induction s using unpacker2.induct with
  | case1 => rfl
  | case2 c => rfl
  | case3 c1 c2 rest hdd ih =>
    rw [hasDoubleSlash, if_pos hdd] at h
    exact absurd h (by simp)
  | case4 c1 c2 rest hdd ih =>
    rw [hasDoubleSlash, if_neg hdd] at h
    rw [unpacker2, if_neg hdd, ih h]

/-- C4 (amended): the codec round-trips on every normalized identifier
containing no underscore and no two adjacent slashes, for any platform
and home directory: DecodeReposPath (EncodeReposPath id) = id.  (An
identifier with adjacent slashes, which NormalizeRepos can produce,
breaks the round trip because the decode step collapses the doubled
slash recreated by unpacker1.) -/
theorem decode_encode_roundtrip {raw id : Str} (hok : NormalizeRepos raw = .ok id)
    (hu : '_' ∉ id) (hdd : hasDoubleSlash id = false) (windows : Bool) (home : Str) :
    DecodeReposPath (EncodeReposPath windows home id) = id := by
  have hcount := normalizeRepos_ok_count hok
  have hmem : '/' ∈ id := List.count_pos_iff.mp (by omega)
  have hne : id ≠ [] := by rintro rfl; simp at hmem
  have hnd : id ≠ ['.'] := by rintro rfl; revert hmem; decide
  have hndd : id ≠ ['.', '.'] := by rintro rfl; revert hmem; decide
  have hdot : ∀ x : Char, (if x = '/' then '_' else x) = '.' → x = '.' := by
    intro x hx
    by_cases hsl : x = '/'
    · rw [if_pos hsl] at hx
      exact absurd hx (by decide)
    · rwa [if_neg hsl] at hx
  have hmap := packer_eq_map hu
  have hslash : '/' ∉ packer id := not_slash_mem_packer id
  have hp0 : packer id ≠ [] := by
    rw [hmap]
    intro hnil
    exact hne (List.map_eq_nil_iff.mp hnil)
  have hp1 : packer id ≠ ['.'] := by
    rw [hmap]
    intro hsingle
    obtain ⟨a, ha1, ha2⟩ := map_eq_singleton_inv hsingle
    exact hnd (by rw [ha1, hdot a ha2])
  have hp2 : packer id ≠ ['.', '.'] := by
    rw [hmap]
    intro hpair
    obtain ⟨a, b, hab, ha, hb⟩ := map_eq_pair_inv hpair
    exact hndd (by rw [hab, hdot a ha, hdot b hb])
  show unpacker2 (unpacker1 (goBase (goJoin [VimVoltOptDir windows home, packer id]))) = id
  rw [goBase_goJoin_pair hslash hp0 hp1 hp2]
  rw [unpacker1_packer hu]
  exact unpacker2_eq_self id hdd

theorem decode_encode_roundtrip_witness :
    NormalizeRepos "a/b".data = .ok "github.com/a/b".data ∧
    '_' ∉ ("github.com/a/b".data : Str) ∧
    hasDoubleSlash "github.com/a/b".data = false ∧
    DecodeReposPath (EncodeReposPath false "/home/u".data "github.com/a/b".data) =
      "github.com/a/b".data :=
  ⟨by decide, by decide, by decide,
    @decode_encode_roundtrip "a/b".data "github.com/a/b".data (by decide) (by decide)
      (by decide) false "/home/u".data⟩

/-- C4 counterexample: the identifier "a//b" (a genuine NormalizeRepos
output) contains no underscore, yet the codec does not round-trip on
it: encoding yields the directory name "a__b", whose decode first turns
every underscore into a slash ("a//b") and then collapses the doubled
slash into an underscore, producing "a_b". -/
theorem decode_encode_cex :
    NormalizeRepos "a//b".data = .ok "a//b".data ∧
    '_' ∉ ("a//b".data : Str) ∧
    DecodeReposPath (EncodeReposPath false "/home/u".data "a//b".data) = "a_b".data ∧
    ("a_b".data : Str) ≠ "a//b".data := by
  refine ⟨by decide, by decide, by decide, by decide⟩

theorem goFilterLoop_eq_aux (p : Str → Bool) :
    ∀ (n : Nat) (v : List Str) (i : Nat), v.length - i ≤ n →
      goFilterLoop p v i = v.take i ++ (v.drop i).filter p := by
  intro n
  induction n with
  | zero =>
    intro v i h
    unfold goFilterLoop
    rw [dif_neg (by omega)]
    rw [List.take_of_length_le (by omega), List.drop_eq_nil_of_le (by omega)]
    simp
  | succ n ih =>
    intro v i h
    unfold goFilterLoop
    by_cases hlt : i < v.length
    · rw [dif_pos hlt]
      by_cases hp : p (v.get ⟨i, hlt⟩) = true
      · rw [if_pos hp, ih v (i + 1) (by omega)]
        rw [List.drop_eq_getElem_cons hlt, List.filter_cons]
        rw [List.get_eq_getElem] at hp
        rw [if_pos hp]
        rw [List.take_succ, List.getElem?_eq_getElem hlt]
        rw [List.append_assoc]
        rfl
      · rw [if_neg hp]
        have hlen : (v.take i ++ v.drop (i + 1)).length = v.length - 1 := by
          rw [List.length_append, List.length_take, List.length_drop]
          omega
        rw [ih _ i (by omega)]
        have htk : (v.take i).length = i := by
          rw [List.length_take]
          omega
        rw [List.take_left' htk, List.drop_left' htk]
        rw [List.drop_eq_getElem_cons hlt, List.filter_cons]
        rw [List.get_eq_getElem] at hp
        rw [if_neg hp]
    · rw [dif_neg hlt]
      rw [List.take_of_length_le (by omega), List.drop_eq_nil_of_le (by omega)]
      simp

theorem goFilterLoop_eq_filter (p : Str → Bool) (v : List Str) :
    goFilterLoop p v 0 = v.filter p := by
  have h := goFilterLoop_eq_aux p v.length v 0 (by omega)
  rw [List.take_zero, List.drop_zero, List.nil_append] at h
  exact h

/-- C9: for every filesystem state (existence predicate), the rc-file
lookups return exactly the candidates that exist, in the fixed
candidate order (home-relative dotfile first, then the
editor-config-root file); when no candidate exists the result is the
empty list. -/
theorem lookUpRc_filter_spec :
    (∀ (windows : Bool) (home : Str) (fs : Str → Bool),
      LookUpVimrc windows home fs = (vimrcCandidates windows home).filter fs) ∧
    (∀ (windows : Bool) (home : Str) (fs : Str → Bool),
      LookUpGvimrc windows home fs = (gvimrcCandidates windows home).filter fs) ∧
    (∀ (windows : Bool) (home : Str) (fs : Str → Bool),
      (∀ c ∈ vimrcCandidates windows home, fs c = false) →
        LookUpVimrc windows home fs = []) ∧
    (∀ (windows : Bool) (home : Str) (fs : Str → Bool),
      (∀ c ∈ gvimrcCandidates windows home, fs c = false) →
        LookUpGvimrc windows home fs = []) := by
  have hv : ∀ (windows : Bool) (home : Str) (fs : Str → Bool),
      LookUpVimrc windows home fs = (vimrcCandidates windows home).filter fs := by
    intro windows home fs
    simp only [LookUpVimrc, vimrcCandidates]
    rw [goFilterLoop_eq_filter]
  have hg : ∀ (windows : Bool) (home : Str) (fs : Str → Bool),
      LookUpGvimrc windows home fs = (gvimrcCandidates windows home).filter fs := by
    intro windows home fs
    simp only [LookUpGvimrc, gvimrcCandidates]
    rw [goFilterLoop_eq_filter]
  refine ⟨hv, hg, ?_, ?_⟩
  · intro windows home fs hnone
    rw [hv]
    exact List.filter_eq_nil_iff.mpr (fun c hc => by rw [hnone c hc]; simp)
  · intro windows home fs hnone
    rw [hg]
    exact List.filter_eq_nil_iff.mpr (fun c hc => by rw [hnone c hc]; simp)

theorem lookUpRc_filter_spec_witness :
    LookUpVimrc false "/home/u".data (fun _ => false) = [] ∧
    LookUpGvimrc false "/home/u".data (fun _ => false) = [] :=
  ⟨lookUpRc_filter_spec.2.2.1 false "/home/u".data (fun _ => false) (fun _ _ => rfl),
   lookUpRc_filter_spec.2.2.2 false "/home/u".data (fun _ => false) (fun _ _ => rfl)⟩

end Pathutil
